import Mathlib

/-!
Shallow embedding of the DNSSEC response-signing subsystem of skydns
(src/server/dnssec.go): the RRset grouper, the signature cache and its
fingerprint, the single-flight coordinator, the denial (NSEC) index, and
the staleness/truncation logic of Server.sign.

Go slices become Lean lists, Go maps become association lists, machine
integers become Nat/Int with explicit byte truncation where the code
packs bytes, and a Go index-out-of-range panic is modelled by Option:
a result of none marks an access outside the slice bounds.
-/

namespace SkyDnssec

/-! ### Strings, ordered as Go orders them

Go compares strings bytewise. The names handled by dnssec.go are ASCII
domain names, for which the UTF-8 byte sequence is the character-code
sequence, so the comparison below on character codes is the Go order.
It is written as a plain recursion so that concrete comparisons
evaluate inside the kernel. -/

/-- Lexicographic strict order on character lists by character code:
the Go < on the underlying bytes. -/
def chLt : List Char → List Char → Bool
  | [], [] => false
  | [], _ :: _ => true
  | _ :: _, [] => false
  | a :: as, b :: bs =>
    if a.toNat < b.toNat then true
    else if b.toNat < a.toNat then false
    else chLt as bs

/-- Go string <. -/
def strLt (a b : String) : Bool := chLt a.data b.data

/-- Go string <= (the negation of the reversed strict order). -/
def strLe (a b : String) : Bool := !(strLt b a)

/-! ### RRset grouping -/

/-- Header fields of a DNS resource record (dns.RR_Header): owner name,
class and rrtype (uint16), TTL (uint32). -/
structure RRHeader where
  Name : String
  Class : Nat
  Rrtype : Nat
  Ttl : Nat
deriving DecidableEq, Repr

/-- The type-specific rdata of the record kinds that sigCache.key
inspects (dns.SOA, dns.SRV, dns.A, dns.AAAA, dns.DNSKEY, dns.NSEC);
every other concrete type falls into the default branch. Address bytes
are kept as byte lists, mirroring net.IP. -/
inductive RRData where
  | soa (Serial : Nat)
  | srv (Priority Weight Port : Nat) (Target : String)
  | a (A : List Nat)
  | aaaa (AAAA : List Nat)
  | dnskey
  | nsec
  | other
deriving DecidableEq, Repr

/-- A DNS resource record: a header plus rdata (dns.RR). -/
structure RR where
  header : RRHeader
  data : RRData
deriving DecidableEq, Repr

/-- The grouping key of rrSets (struct rrset): qname, qclass, qtype. -/
structure rrset where
  qname : String
  qclass : Nat
  qtype : Nat
deriving DecidableEq, Repr

/-- The key rrSets files record r under:
rrset{r.Header().Name, r.Header().Class, r.Header().Rrtype}. -/
def rrKey (r : RR) : rrset :=
  ⟨r.header.Name, r.header.Class, r.header.Rrtype⟩

/-- Lookup in the association list modelling the Go map
m map[rrset][]dns.RR of rrSets. -/
def assocFind (m : List (rrset × List RR)) (k : rrset) : Option (List RR) :=
  match m with
  | [] => none
  | (k1, v) :: rest => if k1 = k then some v else assocFind rest k

/-- One iteration of the loop body of rrSets (dnssec.go lines 193-201).
When the key is already present the source runs s = append(s, r) on the
slice fetched from the map: the appended element lands in a detached
copy of the slice header (the map entry, of length 1 and capacity 3, is
never written back), so the map contents are unchanged and the record
is dropped. When the key is absent a fresh one-element slice is stored. -/
def rrSetsStep (m : List (rrset × List RR)) (r : RR) : List (rrset × List RR) :=
  match assocFind m (rrKey r) with
  | some _ => m
  | none => m ++ [(rrKey r, [r])]

/-- rrSets (dnssec.go lines 191-206): fold the loop body over the input
records; return nil (none) instead of an empty map when nothing was
grouped. -/
def rrSets (rrs : List RR) : Option (List (rrset × List RR)) :=
  let m := rrs.foldl rrSetsStep []
  if m.length > 0 then some m else none

/-! ### Denial (NSEC) index -/

/-- A reference-counted name in a denial registry (struct denialref);
the reference field is a Go int. -/
structure denialref where
  name : String
  reference : Int
deriving DecidableEq, Repr

/-- The result of sort.Search(len(list), func(i) { list[i].name >= x }):
the least index at which the predicate holds, assuming (as sort.Search
requires, and as the sorted registries guarantee) that the predicate is
monotone in i; the linear scan below computes exactly that index. -/
def lowerBound (l : List denialref) (x : String) : Nat :=
  match l with
  | [] => 0
  | r :: rs => if strLe x r.name then 0 else lowerBound rs x + 1

/-- The reference count stored for name x, when x is present. -/
def refAt (l : List denialref) (x : String) : Option Int :=
  match l with
  | [] => none
  | r :: rs => if r.name = x then some r.reference else refAt rs x

/-- denialList.insert on one registry (dnssec.go lines 344-359): find
the insertion point i; if the name sits at i, increment its reference;
otherwise grow the slice by one, shift the tail up with copy, and write
the new entry at i — that is, insert the entry at position i. -/
def dlInsert (l : List denialref) (x : String) : List denialref :=
  let i := lowerBound l x
  match l[i]? with
  | some r =>
    if r.name = x then l.set i ⟨r.name, r.reference + 1⟩
    else l.take i ++ ⟨x, 1⟩ :: l.drop i
  | none => l.take i ++ ⟨x, 1⟩ :: l.drop i

/-- denialList.remove on one registry (dnssec.go lines 372-385): find
the insertion point i; if the name sits at i, decrement its reference
and, when the count reaches zero, delete the entry by shifting the tail
down and truncating the slice; otherwise do nothing. -/
def dlRemove (l : List denialref) (x : String) : List denialref :=
  let i := lowerBound l x
  match l[i]? with
  | some r =>
    if r.name = x then
      if r.reference - 1 = 0 then l.take i ++ l.drop (i + 1)
      else l.set i ⟨r.name, r.reference - 1⟩
    else l
  | none => l

/-- denialList.search on one registry (dnssec.go lines 398-407): find
the insertion point i; if i == 1 return ("", list[i].name), otherwise
return (list[i-1].name, list[i].name). A Go index out of range (i-1 at
i = 0, or an index equal to the length) panics; the model returns none
there. -/
def dlSearch (l : List denialref) (x : String) : Option (String × String) :=
  let i := lowerBound l x
  if i = 1 then
    match l[i]? with
    | some r => some ("", r.name)
    | none => none
  else
    if i = 0 then none
    else
      match l[i - 1]?, l[i]? with
      | some p, some n => some (p.name, n.name)
      | _, _ => none

/-- The denial index state: the four sorted registries of denialList,
list[0] through list[3]; depth parameter l of the operations indexes
list[l-1]. -/
def DenialState := List (List denialref)
deriving DecidableEq, Repr

/-- newDenialList: four empty registries. -/
def newDenialState : DenialState := [[], [], [], []]

/-- denial.insert(x, l) on the whole index: update registry l-1. -/
def stateInsert (d : DenialState) (x : String) (l : Nat) : DenialState :=
  List.set d (l - 1) (dlInsert (List.getD d (l - 1) []) x)

/-- denial.remove(x, l) on the whole index: update registry l-1. -/
def stateRemove (d : DenialState) (x : String) (l : Nat) : DenialState :=
  List.set d (l - 1) (dlRemove (List.getD d (l - 1) []) x)

/-- The fields of msg.Service that dnssec.go reads (the remaining
service fields are never touched by this file). -/
structure Service where
  Region : String
  Version : String
  Name : String
  Environment : String
deriving DecidableEq, Repr

/-- addServiceNSEC (dnssec.go lines 361-368): insert the four derived
names at depths 4, 3, 2, 1. -/
def addServiceNSEC (d : DenialState) (s : Service) : DenialState :=
  let d1 := stateInsert d (s.Region ++ "." ++ s.Version ++ "." ++ s.Name ++ "." ++ s.Environment) 4
  let d2 := stateInsert d1 (s.Version ++ "." ++ s.Name ++ "." ++ s.Environment) 3
  let d3 := stateInsert d2 (s.Name ++ "." ++ s.Environment) 2
  stateInsert d3 s.Environment 1

/-- removeServiceNSEC (dnssec.go lines 387-393): the source calls
denial.insert, not denial.remove, for all four derived names. -/
def removeServiceNSEC (d : DenialState) (s : Service) : DenialState :=
  let d1 := stateInsert d (s.Region ++ "." ++ s.Version ++ "." ++ s.Name ++ "." ++ s.Environment) 4
  let d2 := stateInsert d1 (s.Version ++ "." ++ s.Name ++ "." ++ s.Environment) 3
  let d3 := stateInsert d2 (s.Name ++ "." ++ s.Environment) 2
  stateInsert d3 s.Environment 1

/-- The reference count of name x in the depth-l registry. -/
def stateRefAt (d : DenialState) (x : String) (l : Nat) : Option Int :=
  refAt (List.getD d (l - 1) []) x

/-! ### Signature cache and fingerprint -/

/-- The fields of dns.RRSIG that this subsystem fills in and compares;
inception and expiration are seconds, kept as Int over the range where
the RFC1982 serial comparison of the uint32 values agrees with plain
comparison. -/
structure RRSIG where
  OrigTtl : Nat
  Algorithm : Nat
  KeyTag : Nat
  Inception : Int
  Expiration : Int
  SignerName : String
  Signature : String
deriving DecidableEq, Repr

/-- Modelled from the spec: RRSIG.ValidityPeriod lives in the external
dns library, out of scope of src/. A signature "remains valid as of"
time t when t lies inside its validity window, between inception and
expiration. -/
def ValidityPeriod (sig : RRSIG) (t : Int) : Bool :=
  decide (sig.Inception ≤ t) && decide (t ≤ sig.Expiration)

/-- One hour of Unix time, in seconds. -/
def hour : Int := 3600

/-- The outcome of the per-RRset cache consultation in Server.sign:
either the cached signature is appended, or a fresh one is computed
(after evicting a stale entry when one was found). -/
inductive SignStep where
  | useCached (sig : RRSIG)
  | resign (evicted : Bool)
deriving DecidableEq, Repr

/-- The cache consultation of Server.sign for one RRset (dnssec.go
lines 81-88 and 107-114): on a hit, append the cached signature when
s.ValidityPeriod(now.Add(-24 * time.Hour)) holds, otherwise remove the
entry and sign afresh; on a miss, sign afresh. -/
def signCacheStep (cached : Option RRSIG) (now : Int) : SignStep :=
  match cached with
  | some s =>
    if ValidityPeriod s (now - 24 * hour) then SignStep.useCached s
    else SignStep.resign true
  | none => SignStep.resign false

/-- The truncation step at the end of Server.sign (dnssec.go lines
133-135): when the guard bufsize >= 512 || bufsize <= 4096 holds, set
m.Truncated to m.Len() > bufsize; otherwise leave it as it was. -/
def signTruncation (bufsize msgLen : Nat) (tc : Bool) : Bool :=
  if 512 ≤ bufsize ∨ bufsize ≤ 4096 then decide (msgLen > bufsize) else tc

/-- packUint16 (dnssec.go line 275): the two big-endian bytes of a
uint16. -/
def packUint16 (i : Nat) : List Nat :=
  [i / 2 ^ 8 % 256, i % 256]

/-- packUint32 (dnssec.go line 276): the four big-endian bytes of a
uint32. -/
def packUint32 (i : Nat) : List Nat :=
  [i / 2 ^ 24 % 256, i / 2 ^ 16 % 256, i / 2 ^ 8 % 256, i % 256]

/-- The bytes Go obtains from a string; the names in play are ASCII,
where the UTF-8 bytes are the character codes. -/
def strBytes (s : String) : List Nat :=
  s.data.map Char.toNat

/-- sigCache.key creates h := sha1.New() but never writes to it, so
h.Sum(i) appends the SHA-1 digest of the empty message — the fixed 20
bytes below — to the serialization i rather than hashing i. -/
def sha1EmptyDigest : List Nat :=
  [0xda, 0x39, 0xa3, 0xee, 0x5e, 0x6b, 0x4b, 0x0d, 0x32, 0x55,
   0xbf, 0xef, 0x95, 0x60, 0x18, 0x90, 0xaf, 0xd8, 0x07, 0x09]

/-- The switch in the loop body of sigCache.key (dnssec.go lines
251-270): the bytes contributed by one record. In the SRV case the
source appends t.Priority, then t.Weight twice (lines 257-258), then
t.Target — t.Port is never appended. -/
def rdataBytes (r : RR) : List Nat :=
  match r.data with
  | RRData.soa serial => packUint32 serial
  | RRData.srv priority weight _port target =>
    packUint16 priority ++ packUint16 weight ++ packUint16 weight ++ strBytes target
  | RRData.a addr => addr
  | RRData.aaaa addr => addr
  | RRData.dnskey => []
  | RRData.nsec => []
  | RRData.other => []

/-- sigCache.key (dnssec.go lines 246-273): start from the first
record's name and rrtype, append each record's rdata bytes, then append
what h.Sum adds. rrs[0] on an empty slice panics, modelled by none. -/
def sigCacheKey (rrs : List RR) : Option (List Nat) :=
  match rrs with
  | [] => none
  | r0 :: _ =>
    some ((rrs.foldl (fun i r => i ++ rdataBytes r)
      (strBytes r0.header.Name ++ packUint16 r0.header.Rrtype)) ++ sha1EmptyDigest)

/-- Lookup in the association list modelling the sigCache map
m map[string]*dns.RRSIG. -/
def cacheFind (m : List (String × RRSIG)) (s : String) : Option RRSIG :=
  match m with
  | [] => none
  | (k, v) :: rest => if k = s then some v else cacheFind rest s

/-- sigCache.insert (dnssec.go lines 223-229): under the lock, store
the signature only when the key is absent; an existing entry is never
overwritten. -/
def cacheInsert (m : List (String × RRSIG)) (s : String) (r : RRSIG) :
    List (String × RRSIG) :=
  match cacheFind m s with
  | some _ => m
  | none => (s, r) :: m

/-! ### Single-flight coordinator -/

/-- What one caller of single.Do observes: the value and error recorded
in the call struct, and the shared flag it returns. -/
structure DoResult where
  val : RRSIG
  err : Option String
  shared : Bool
deriving DecidableEq, Repr

/-- single.Do (dnssec.go lines 291-315) for a batch of n calls with the
same key that are concurrent: every later caller takes the mutex while
the first caller's fn is still running. The first caller finds no map
entry, registers a call struct, runs fn once outside the lock, deletes
the entry and returns (c.val, c.err, c.dups > 0), reading dups = n - 1;
each of the other n - 1 callers finds the entry, increments dups, waits
on the WaitGroup and returns (c.val, c.err, true). The first component
lists each caller's result (executor first), the second counts the
invocations of fn. -/
def doBatch (n : Nat) (fnval : RRSIG × Option String) : List DoResult × Nat :=
  match n with
  | 0 => ([], 0)
  | k + 1 =>
    (⟨fnval.1, fnval.2, decide (0 < k)⟩ :: List.replicate k ⟨fnval.1, fnval.2, true⟩, 1)

/-- Strict order of registry entries by name, in the Go string order. -/
def nameLt (a b : denialref) : Prop := strLt a.name b.name = true

/-- The registry invariant the spec states: strict lexicographic order
by name, no duplicate names, and a positive reference count on every
entry. -/
def DLInv (l : List denialref) : Prop :=
  List.Pairwise nameLt l ∧ (l.map denialref.name).Nodup ∧ ∀ r ∈ l, 0 < r.reference

/-! ### Named concrete values used by witnesses -/

/-- A concrete signature record, as Server.sign would build one. -/
def sigW : RRSIG := ⟨60, 5, 41239, 0, 604800, "skydns.local.", "sigbytes"⟩

/-- A second concrete signature record, distinct from sigW. -/
def sigW2 : RRSIG := ⟨60, 5, 41239, 100, 700, "skydns.local.", "older"⟩

/-! ### Order facts about the Go string comparison -/

theorem chLt_irrefl (a : List Char) : chLt a a = false := by
  induction a with
  | nil => rfl
  | cons c cs ih => simp [chLt, ih]

theorem char_eq_of_toNat_eq {a b : Char} (h : a.toNat = b.toNat) : a = b := by
  apply Char.eq_of_val_eq
  apply UInt32.eq_of_val_eq
  exact Fin.eq_of_val_eq h

theorem chLt_trans {a b c : List Char} (h1 : chLt a b = true) (h2 : chLt b c = true) :
    chLt a c = true := by
  induction a generalizing b c with
  | nil =>
    cases c with
    | nil =>
      cases b with
      | nil => exact h1
      | cons y ys => simp [chLt] at h2
    | cons z zs => rfl
  | cons x xs ih =>
    cases b with
    | nil => simp [chLt] at h1
    | cons y ys =>
      cases c with
      | nil => simp [chLt] at h2
      | cons z zs =>
        simp only [chLt] at h1 h2 ⊢
        rcases Nat.lt_trichotomy x.toNat y.toNat with hxy | hxy | hxy <;>
          rcases Nat.lt_trichotomy y.toNat z.toNat with hyz | hyz | hyz
        · simp [show x.toNat < z.toNat by omega]
        · simp [show x.toNat < z.toNat by omega]
        · simp [show ¬ y.toNat < z.toNat by omega, hyz] at h2
        · simp [show x.toNat < z.toNat by omega]
        · have e1 : ¬ x.toNat < y.toNat := by omega
          have e2 : ¬ y.toNat < x.toNat := by omega
          have f1 : ¬ y.toNat < z.toNat := by omega
          have f2 : ¬ z.toNat < y.toNat := by omega
          simp only [e1, e2, if_false, if_neg] at h1
          simp only [f1, f2, if_false, if_neg] at h2
          simp only [show ¬ x.toNat < z.toNat by omega, show ¬ z.toNat < x.toNat by omega,
            if_false, if_neg]
          exact ih h1 h2
        · simp [show ¬ y.toNat < z.toNat by omega, hyz] at h2
        · simp [show ¬ x.toNat < y.toNat by omega, hxy] at h1
        · simp [show ¬ x.toNat < y.toNat by omega, hxy] at h1
        · simp [show ¬ x.toNat < y.toNat by omega, hxy] at h1

theorem chLt_antisymm {a b : List Char} (h1 : chLt a b = false) (h2 : chLt b a = false) :
    a = b := by
  induction a generalizing b with
  | nil =>
    cases b with
    | nil => rfl
    | cons y ys => simp [chLt] at h1
  | cons x xs ih =>
    cases b with
    | nil => simp [chLt] at h2
    | cons y ys =>
      simp only [chLt] at h1 h2
      rcases Nat.lt_trichotomy x.toNat y.toNat with h | h | h
      · simp [h] at h1
      · have hx : x = y := char_eq_of_toNat_eq h
        subst hx
        simp only [Nat.lt_irrefl, if_neg, if_false] at h1 h2
        rw [ih h1 h2]
      · simp [h] at h2

theorem strLt_irrefl (a : String) : strLt a a = false := chLt_irrefl a.data

theorem strLt_trans {a b c : String} (h1 : strLt a b = true) (h2 : strLt b c = true) :
    strLt a c = true := chLt_trans h1 h2

theorem strLt_antisymm {a b : String} (h1 : strLt a b = false) (h2 : strLt b a = false) :
    a = b := by
  cases a with
  | mk da =>
    cases b with
    | mk db => exact congrArg String.mk (chLt_antisymm h1 h2)

theorem strLe_eq_true_iff {a b : String} : strLe a b = true ↔ strLt b a = false := by
  simp [strLe]

theorem strLe_eq_false_iff {a b : String} : strLe a b = false ↔ strLt b a = true := by
  simp [strLe]

theorem strLt_of_le_ne {x y : String} (h1 : strLe x y = true) (h2 : y ≠ x) :
    strLt x y = true := by
  cases hx : strLt x y with
  | true => rfl
  | false => exact absurd (strLt_antisymm hx (strLe_eq_true_iff.mp h1)).symm h2

/-! ### The denial registry invariant and its preservation -/

theorem dlInsert_nil (x : String) : dlInsert [] x = [⟨x, 1⟩] := rfl

theorem dlInsert_cons_le {r : denialref} {rs : List denialref} {x : String}
    (h : strLe x r.name = true) :
    dlInsert (r :: rs) x =
      if r.name = x then ⟨r.name, r.reference + 1⟩ :: rs
      else ⟨x, 1⟩ :: r :: rs := by
  have h0 : lowerBound (r :: rs) x = 0 := by simp [lowerBound, h]
  by_cases hn : r.name = x <;>
    simp only [dlInsert, h0, List.getElem?_cons_zero, if_pos, if_neg, hn, if_true,
      if_false, List.set_cons_zero, List.take_zero, List.drop_zero, List.nil_append]

theorem dlInsert_cons_gt {r : denialref} {rs : List denialref} {x : String}
    (h : strLe x r.name = false) :
    dlInsert (r :: rs) x = r :: dlInsert rs x := by
  have h0 : lowerBound (r :: rs) x = lowerBound rs x + 1 := by simp [lowerBound, h]
  simp only [dlInsert, h0, List.getElem?_cons_succ, List.set_cons_succ,
    List.take_succ_cons, List.drop_succ_cons]
  cases hg : rs[lowerBound rs x]? with
  | none => simp [hg]
  | some q => by_cases hn : q.name = x <;> simp [hg, hn]

theorem dlRemove_nil (x : String) : dlRemove [] x = [] := rfl

theorem dlRemove_cons_le {r : denialref} {rs : List denialref} {x : String}
    (h : strLe x r.name = true) :
    dlRemove (r :: rs) x =
      if r.name = x then
        (if r.reference - 1 = 0 then rs else ⟨r.name, r.reference - 1⟩ :: rs)
      else r :: rs := by
  have h0 : lowerBound (r :: rs) x = 0 := by simp [lowerBound, h]
  by_cases hn : r.name = x <;> by_cases hz : r.reference - 1 = 0 <;>
    simp only [dlRemove, h0, List.getElem?_cons_zero, hn, hz, if_true, if_false,
      if_pos, if_neg, List.set_cons_zero, List.take_zero, List.drop_succ_cons,
      List.drop_zero, List.nil_append, Nat.zero_add]

theorem dlRemove_cons_gt {r : denialref} {rs : List denialref} {x : String}
    (h : strLe x r.name = false) :
    dlRemove (r :: rs) x = r :: dlRemove rs x := by
  have h0 : lowerBound (r :: rs) x = lowerBound rs x + 1 := by simp [lowerBound, h]
  simp only [dlRemove, h0, List.getElem?_cons_succ, List.set_cons_succ,
    List.take_succ_cons, List.drop_succ_cons]
  cases hg : rs[lowerBound rs x]? with
  | none => simp [hg]
  | some q =>
    by_cases hn : q.name = x <;> by_cases hz : q.reference - 1 = 0 <;>
      simp [hg, hn, hz]

theorem mem_dlInsert {l : List denialref} {x : String} :
    ∀ q ∈ dlInsert l x, q.name = x ∨ q ∈ l := by
  induction l with
  | nil =>
    intro q hq
    rw [dlInsert_nil] at hq
    simp at hq
    subst hq
    exact Or.inl rfl
  | cons r rs ih =>
    intro q hq
    cases h : strLe x r.name with
    | true =>
      rw [dlInsert_cons_le h] at hq
      by_cases hn : r.name = x
      · rw [if_pos hn] at hq
        rcases List.mem_cons.mp hq with hq | hq
        · subst hq; exact Or.inl hn
        · exact Or.inr (List.mem_cons_of_mem r hq)
      · rw [if_neg hn] at hq
        rcases List.mem_cons.mp hq with hq | hq
        · subst hq; exact Or.inl rfl
        · exact Or.inr hq
    | false =>
      rw [dlInsert_cons_gt h] at hq
      rcases List.mem_cons.mp hq with hq | hq
      · rw [hq]; exact Or.inr (List.mem_cons_self r rs)
      · rcases ih q hq with hx | hm
        · exact Or.inl hx
        · exact Or.inr (List.mem_cons_of_mem r hm)

theorem mem_name_dlRemove {l : List denialref} {x : String} :
    ∀ q ∈ dlRemove l x, ∃ p ∈ l, q.name = p.name := by
  induction l with
  | nil => intro q hq; rw [dlRemove_nil] at hq; simp at hq
  | cons r rs ih =>
    intro q hq
    cases h : strLe x r.name with
    | true =>
      rw [dlRemove_cons_le h] at hq
      by_cases hn : r.name = x
      · rw [if_pos hn] at hq
        by_cases hz : r.reference - 1 = 0
        · rw [if_pos hz] at hq
          exact ⟨q, List.mem_cons_of_mem r hq, rfl⟩
        · rw [if_neg hz] at hq
          rcases List.mem_cons.mp hq with hq | hq
          · subst hq; exact ⟨r, List.mem_cons_self r rs, rfl⟩
          · exact ⟨q, List.mem_cons_of_mem r hq, rfl⟩
      · rw [if_neg hn] at hq
        exact ⟨q, hq, rfl⟩
    | false =>
      rw [dlRemove_cons_gt h] at hq
      rcases List.mem_cons.mp hq with hq | hq
      · exact ⟨r, List.mem_cons_self r rs, by rw [hq]⟩
      · rcases ih q hq with ⟨p, hp, hpn⟩
        exact ⟨p, List.mem_cons_of_mem r hp, hpn⟩

theorem dlInsert_pairwise {l : List denialref} {x : String}
    (hs : List.Pairwise nameLt l) : List.Pairwise nameLt (dlInsert l x) := by
  induction l with
  | nil => rw [dlInsert_nil]; exact List.pairwise_singleton nameLt ⟨x, 1⟩
  | cons r rs ih =>
    obtain ⟨hr, hrs⟩ := List.pairwise_cons.mp hs
    cases h : strLe x r.name with
    | true =>
      rw [dlInsert_cons_le h]
      by_cases hn : r.name = x
      · rw [if_pos hn]
        exact List.pairwise_cons.mpr ⟨fun q hq => hr q hq, hrs⟩
      · rw [if_neg hn]
        refine List.pairwise_cons.mpr ⟨?_, hs⟩
        intro q hq
        rcases List.mem_cons.mp hq with hq | hq
        · subst hq; exact strLt_of_le_ne h hn
        · exact strLt_trans (strLt_of_le_ne h hn) (hr q hq)
    | false =>
      rw [dlInsert_cons_gt h]
      refine List.pairwise_cons.mpr ⟨?_, ih hrs⟩
      intro q hq
      rcases mem_dlInsert q hq with hx | hm
      · show strLt r.name q.name = true
        rw [hx]
        exact strLe_eq_false_iff.mp h
      · exact hr q hm

theorem dlRemove_pairwise {l : List denialref} {x : String}
    (hs : List.Pairwise nameLt l) : List.Pairwise nameLt (dlRemove l x) := by
  induction l with
  | nil => rw [dlRemove_nil]; exact List.Pairwise.nil
  | cons r rs ih =>
    obtain ⟨hr, hrs⟩ := List.pairwise_cons.mp hs
    cases h : strLe x r.name with
    | true =>
      rw [dlRemove_cons_le h]
      by_cases hn : r.name = x
      · rw [if_pos hn]
        by_cases hz : r.reference - 1 = 0
        · rw [if_pos hz]; exact hrs
        · rw [if_neg hz]
          exact List.pairwise_cons.mpr ⟨fun q hq => hr q hq, hrs⟩
      · rw [if_neg hn]; exact hs
    | false =>
      rw [dlRemove_cons_gt h]
      refine List.pairwise_cons.mpr ⟨?_, ih hrs⟩
      intro q hq
      rcases mem_name_dlRemove q hq with ⟨p, hp, hpn⟩
      show strLt r.name q.name = true
      rw [hpn]
      exact hr p hp

theorem dlInsert_pos {l : List denialref} {x : String}
    (hp : ∀ q ∈ l, 0 < q.reference) : ∀ q ∈ dlInsert l x, 0 < q.reference := by
  induction l with
  | nil =>
    intro q hq
    rw [dlInsert_nil] at hq
    simp at hq
    subst hq
    exact Int.zero_lt_one
  | cons r rs ih =>
    intro q hq
    cases h : strLe x r.name with
    | true =>
      rw [dlInsert_cons_le h] at hq
      by_cases hn : r.name = x
      · rw [if_pos hn] at hq
        rcases List.mem_cons.mp hq with hq | hq
        · have hpos := hp r (List.mem_cons_self r rs)
          rw [hq]
          show 0 < r.reference + 1
          omega
        · exact hp q (List.mem_cons_of_mem r hq)
      · rw [if_neg hn] at hq
        rcases List.mem_cons.mp hq with hq | hq
        · subst hq; exact Int.zero_lt_one
        · exact hp q hq
    | false =>
      rw [dlInsert_cons_gt h] at hq
      rcases List.mem_cons.mp hq with hq | hq
      · rw [hq]; exact hp r (List.mem_cons_self r rs)
      · exact ih (fun p hm => hp p (List.mem_cons_of_mem r hm)) q hq

theorem dlRemove_pos {l : List denialref} {x : String}
    (hp : ∀ q ∈ l, 0 < q.reference) : ∀ q ∈ dlRemove l x, 0 < q.reference := by
  induction l with
  | nil => intro q hq; rw [dlRemove_nil] at hq; simp at hq
  | cons r rs ih =>
    intro q hq
    cases h : strLe x r.name with
    | true =>
      rw [dlRemove_cons_le h] at hq
      by_cases hn : r.name = x
      · rw [if_pos hn] at hq
        by_cases hz : r.reference - 1 = 0
        · rw [if_pos hz] at hq
          exact hp q (List.mem_cons_of_mem r hq)
        · rw [if_neg hz] at hq
          rcases List.mem_cons.mp hq with hq | hq
          · have hpos := hp r (List.mem_cons_self r rs)
            rw [hq]
            show 0 < r.reference - 1
            omega
          · exact hp q (List.mem_cons_of_mem r hq)
      · rw [if_neg hn] at hq
        exact hp q hq
    | false =>
      rw [dlRemove_cons_gt h] at hq
      rcases List.mem_cons.mp hq with hq | hq
      · rw [hq]; exact hp r (List.mem_cons_self r rs)
      · exact ih (fun p hm => hp p (List.mem_cons_of_mem r hm)) q hq

theorem nodup_names_of_pairwise {l : List denialref}
    (hs : List.Pairwise nameLt l) : (l.map denialref.name).Nodup := by
  rw [List.Nodup, List.pairwise_map]
  refine hs.imp ?_
  intro a b hab he
  unfold nameLt at hab
  rw [show a.name = b.name from he, strLt_irrefl] at hab
  exact Bool.false_ne_true hab

theorem DLInv_dlInsert {l : List denialref} {x : String} (h : DLInv l) :
    DLInv (dlInsert l x) :=
  ⟨dlInsert_pairwise h.1, nodup_names_of_pairwise (dlInsert_pairwise h.1),
    dlInsert_pos h.2.2⟩

theorem DLInv_dlRemove {l : List denialref} {x : String} (h : DLInv l) :
    DLInv (dlRemove l x) :=
  ⟨dlRemove_pairwise h.1, nodup_names_of_pairwise (dlRemove_pairwise h.1),
    dlRemove_pos h.2.2⟩

theorem refAt_none_names {l : List denialref} {x : String} (h : refAt l x = none) :
    ∀ q ∈ l, q.name ≠ x := by
  induction l with
  | nil => intro q hq; simp at hq
  | cons r rs ih =>
    intro q hq
    rw [refAt] at h
    by_cases hn : r.name = x
    · rw [if_pos hn] at h; exact absurd h (by simp)
    · rw [if_neg hn] at h
      rcases List.mem_cons.mp hq with hq | hq
      · rw [hq]; exact hn
      · exact ih h q hq

theorem refAt_some_mem {l : List denialref} {x : String} {c : Int}
    (h : refAt l x = some c) : ∃ q ∈ l, q.name = x := by
  induction l with
  | nil => simp [refAt] at h
  | cons r rs ih =>
    rw [refAt] at h
    by_cases hn : r.name = x
    · exact ⟨r, List.mem_cons_self r rs, hn⟩
    · rw [if_neg hn] at h
      rcases ih h with ⟨q, hq, hqn⟩
      exact ⟨q, List.mem_cons_of_mem r hq, hqn⟩

theorem dlInsert_absent {l : List denialref} {x : String} (h : refAt l x = none) :
    dlInsert l x = l.take (lowerBound l x) ++ ⟨x, 1⟩ :: l.drop (lowerBound l x) := by
  simp only [dlInsert]
  cases hg : l[lowerBound l x]? with
  | none => rfl
  | some r =>
    have hm : r ∈ l := List.getElem?_mem hg
    have hne : r.name ≠ x := refAt_none_names h r hm
    simp [hne]

theorem dlInsert_present {l : List denialref} {x : String}
    (hs : List.Pairwise nameLt l) :
    ∀ c : Int, refAt l x = some c →
      refAt (dlInsert l x) x = some (c + 1) ∧
      (dlInsert l x).map denialref.name = l.map denialref.name := by
  induction l with
  | nil => intro c hc; simp [refAt] at hc
  | cons r rs ih =>
    intro c hc
    obtain ⟨hr, hrs⟩ := List.pairwise_cons.mp hs
    cases h : strLe x r.name with
    | true =>
      rw [dlInsert_cons_le h]
      by_cases hn : r.name = x
      · rw [if_pos hn]
        rw [refAt, if_pos hn] at hc
        injection hc with hc
        subst hc
        exact ⟨by simp [refAt, hn], by simp⟩
      · rw [refAt, if_neg hn] at hc
        obtain ⟨q, hq, hqn⟩ := refAt_some_mem hc
        have h1 : strLt x r.name = true := strLt_of_le_ne h hn
        have h2 : strLt r.name q.name = true := hr q hq
        rw [hqn] at h2
        have h3 : strLt x x = true := strLt_trans h1 h2
        rw [strLt_irrefl] at h3
        exact absurd h3 (by simp)
    | false =>
      rw [dlInsert_cons_gt h]
      have hn : r.name ≠ x := by
        intro he
        rw [he] at h
        simp [strLe, strLt_irrefl] at h
      rw [refAt, if_neg hn] at hc
      obtain ⟨ih1, ih2⟩ := ih hrs c hc
      exact ⟨by simp [refAt, hn, ih1], by simp [ih2]⟩

/-! ### The claims -/

/-- Claim C1: rrSets does NOT put two records sharing a (name, class,
type) key into one group — the second record is silently dropped, since
the append lands in a detached copy of the mapped slice. Grouping two
distinct A records with the same key yields a single group holding only
the first record. -/
theorem rrSets_drops_second_record :
    rrSets [⟨⟨"web.prod.skydns.local.", 1, 1, 60⟩, RRData.a [10, 0, 0, 1]⟩,
        ⟨⟨"web.prod.skydns.local.", 1, 1, 60⟩, RRData.a [10, 0, 0, 2]⟩] =
      some [(⟨"web.prod.skydns.local.", 1, 1⟩,
        [⟨⟨"web.prod.skydns.local.", 1, 1, 60⟩, RRData.a [10, 0, 0, 1]⟩])] ∧
    (⟨⟨"web.prod.skydns.local.", 1, 1, 60⟩, RRData.a [10, 0, 0, 1]⟩ : RR) ≠
      ⟨⟨"web.prod.skydns.local.", 1, 1, 60⟩, RRData.a [10, 0, 0, 2]⟩ := by
  constructor
  · decide
  · decide

/-- Claim C2: on the registry holding exactly "a" and "c", searching
"b" returns predecessor "" (not "a" as claimed), because the source
tests the insertion point against 1 where start-of-zone is index 0; and
searching "0", below the first entry, indexes the slice at -1 (modelled
none) instead of returning an empty predecessor. -/
theorem denialList_search_wrong_neighbors :
    dlSearch [⟨"a", 1⟩, ⟨"c", 1⟩] "b" = some ("", "c") ∧
    dlSearch [⟨"a", 1⟩, ⟨"c", 1⟩] "0" = none := by
  constructor
  · decide
  · decide

/-- Claim C3: removeServiceNSEC calls denial.insert, so deregistering
increments rather than decrements: after registering web.prod twice and
deregistering once, the depth-2 entry "web.prod" (and the depth-1 entry
"prod") holds reference count 3, where the claim demands 1. -/
theorem removeServiceNSEC_increments :
    stateRefAt (removeServiceNSEC (addServiceNSEC (addServiceNSEC newDenialState
        ⟨"east", "1-0-0", "web", "prod"⟩) ⟨"east", "1-0-0", "web", "prod"⟩)
        ⟨"east", "1-0-0", "web", "prod"⟩) "web.prod" 2 = some 3 ∧
    stateRefAt (removeServiceNSEC (addServiceNSEC (addServiceNSEC newDenialState
        ⟨"east", "1-0-0", "web", "prod"⟩) ⟨"east", "1-0-0", "web", "prod"⟩)
        ⟨"east", "1-0-0", "web", "prod"⟩) "prod" 1 = some 3 := by
  constructor
  · decide
  · decide

/-- Claim C4 (amended): Server.sign appends a cached signature exactly
when the signature is inside its validity window at the instant
now minus 24 hours — inception ≤ now - 24h ≤ expiration — not when it
retains 24 hours of validity beyond now; a failing entry is evicted and
a fresh signature computed, as is one absent from the cache. -/
theorem sign_cache_staleness_window (c : RRSIG) (now : Int) :
    signCacheStep (some c) now =
      (if c.Inception ≤ now - 24 * hour ∧ now - 24 * hour ≤ c.Expiration
        then SignStep.useCached c else SignStep.resign true) ∧
    signCacheStep none now = SignStep.resign false := by
  refine ⟨?_, rfl⟩
  simp only [signCacheStep, ValidityPeriod]
  by_cases h1 : c.Inception ≤ now - 24 * hour <;>
    by_cases h2 : now - 24 * hour ≤ c.Expiration <;>
    simp [h1, h2]

/-- Claim C4 counterexample: at now = 1000000000, a cached signature
whose expiration 999996400 lies an hour in the past — no remaining
validity at all, let alone 24 hours beyond the present — still passes
the check and is appended rather than evicted. -/
theorem sign_cache_staleness_cex :
    signCacheStep (some ⟨60, 5, 41239, 0, 999996400, "skydns.local.", "s"⟩) 1000000000 =
      SignStep.useCached ⟨60, 5, 41239, 0, 999996400, "skydns.local.", "s"⟩ ∧
    (999996400 : Int) < 1000000000 := by
  constructor
  · decide
  · decide

/-- Claim C5: the fingerprint of a service RRset does not depend on the
port: the source serializes the weight twice and never the port, so two
SRV records identical except for their ports (80 versus 81) receive the
same cache key, where the claim demands different fingerprints. -/
theorem sigCacheKey_ignores_srv_port :
    sigCacheKey [⟨⟨"web.prod.skydns.local.", 1, 33, 60⟩, RRData.srv 10 20 80 "east.web"⟩] =
      sigCacheKey [⟨⟨"web.prod.skydns.local.", 1, 33, 60⟩, RRData.srv 10 20 81 "east.web"⟩] ∧
    (⟨⟨"web.prod.skydns.local.", 1, 33, 60⟩, RRData.srv 10 20 80 "east.web"⟩ : RR) ≠
      ⟨⟨"web.prod.skydns.local.", 1, 33, 60⟩, RRData.srv 10 20 81 "east.web"⟩ := by
  constructor
  · decide
  · decide

/-- Claim C6: the guard bufsize >= 512 || bufsize <= 4096 is a
tautology (|| where the stated range needs &&), so the truncation
indicator is computed from the length comparison for EVERY buffer size:
at bufsize 100 — outside [512, 4096] — a 200-byte message still sets
the indicator, where the claim says the comparison must not apply. -/
theorem sign_truncation_always_compares :
    (signTruncation 100 200 false = true ∧ ¬ (512 ≤ (100 : Nat) ∧ (100 : Nat) ≤ 4096)) ∧
    ∀ bufsize msgLen : Nat, ∀ tc : Bool,
      signTruncation bufsize msgLen tc = decide (msgLen > bufsize) := by
  refine ⟨⟨by decide, by decide⟩, ?_⟩
  intro bufsize msgLen tc
  rw [signTruncation, if_pos]
  omega

/-- Claim C7 (amended): a batch of n concurrent Do calls with one key
runs the signing function exactly once and hands every caller the same
value and error; every waiter sees shared = true, but the executing
caller returns c.dups > 0, so with two or more concurrent callers its
flag is also true — not false as the claim states. -/
theorem single_do_batch_spec (n : Nat) (v : RRSIG) (e : Option String) (h : 1 ≤ n) :
    (doBatch n (v, e)).2 = 1 ∧
    (doBatch n (v, e)).1.length = n ∧
    ((doBatch n (v, e)).1.all fun r => decide (r.val = v ∧ r.err = e)) = true ∧
    (((doBatch n (v, e)).1.drop 1).all fun r => r.shared) = true ∧
    (doBatch n (v, e)).1.head?.map DoResult.shared = some (decide (2 ≤ n)) := by
  obtain ⟨k, rfl⟩ : ∃ k, n = k + 1 := ⟨n - 1, by omega⟩
  refine ⟨rfl, ?_, ?_, ?_, ?_⟩
  · simp [doBatch]
  · rw [List.all_eq_true]
    intro r hr
    simp only [doBatch] at hr
    rcases List.mem_cons.mp hr with hr | hr
    · rw [hr]; simp
    · rw [List.eq_of_mem_replicate hr]; simp
  · rw [List.all_eq_true]
    intro r hr
    simp only [doBatch, List.drop_succ_cons, List.drop_zero] at hr
    rw [List.eq_of_mem_replicate hr]
  · simp only [doBatch, List.head?_cons, Option.map_some']
    congr 1
    rw [decide_eq_decide]
    omega

/-- Claim C7 witness: the batch model at n = 3 with a concrete
signature and no error. -/
theorem single_do_batch_spec_witness :
    (doBatch 3 (sigW, none)).2 = 1 ∧
    (doBatch 3 (sigW, none)).1.length = 3 ∧
    ((doBatch 3 (sigW, none)).1.all fun r => decide (r.val = sigW ∧ r.err = none)) = true ∧
    (((doBatch 3 (sigW, none)).1.drop 1).all fun r => r.shared) = true ∧
    (doBatch 3 (sigW, none)).1.head?.map DoResult.shared = some (decide (2 ≤ 3)) :=
  single_do_batch_spec 3 sigW none (by decide)

/-- Claim C7 counterexample: with two concurrent callers the executing
caller also observes shared = true (Do returns c.dups > 0 to it), while
the claim requires the executor's flag to be false. -/
theorem single_do_executor_shared_cex :
    (doBatch 2 (sigW, none)).1.head?.map DoResult.shared = some true ∧
    (doBatch 2 (sigW, none)).2 = 1 := by
  constructor
  · decide
  · decide

/-- Claim C8: denialList.insert and denialList.remove preserve the
registry invariant — strict lexicographic order by name, no duplicate
names, every reference count positive (a count reaching zero deletes
the entry); inserting an absent name places it with count 1 at its
sorted position, and inserting a present name only increments its count,
leaving the name sequence unchanged. -/
theorem denial_insert_remove_invariant (l : List denialref) (x : String) (h : DLInv l) :
    DLInv (dlInsert l x) ∧ DLInv (dlRemove l x) ∧
    (refAt l x = none →
      dlInsert l x = l.take (lowerBound l x) ++ ⟨x, 1⟩ :: l.drop (lowerBound l x)) ∧
    (∀ c : Int, refAt l x = some c →
      refAt (dlInsert l x) x = some (c + 1) ∧
      (dlInsert l x).map denialref.name = l.map denialref.name) :=
  ⟨DLInv_dlInsert h, DLInv_dlRemove h, dlInsert_absent, dlInsert_present h.1⟩

/-- Claim C8 witness: the invariant holds for the two-entry registry
"a", "c" and is preserved by inserting "b" and by removing "b". -/
theorem denial_insert_remove_invariant_witness :
    DLInv (dlInsert [⟨"a", 1⟩, ⟨"c", 2⟩] "b") ∧
    DLInv (dlRemove [⟨"a", 1⟩, ⟨"c", 2⟩] "b") ∧
    refAt (dlInsert [⟨"a", 1⟩, ⟨"c", 2⟩] "c") "c" = some 3 := by
  have hinv : DLInv [⟨"a", 1⟩, ⟨"c", 2⟩] := by
    refine ⟨?_, ?_, ?_⟩
    · refine List.pairwise_cons.mpr ⟨?_, List.pairwise_singleton _ _⟩
      intro q hq
      rw [List.mem_singleton.mp hq]
      show strLt "a" "c" = true
      decide
    · decide
    · decide
  have h := denial_insert_remove_invariant [⟨"a", 1⟩, ⟨"c", 2⟩] "b" hinv
  have h2 := denial_insert_remove_invariant [⟨"a", 1⟩, ⟨"c", 2⟩] "c" hinv
  exact ⟨h.1, h.2.1, (h2.2.2.2 2 (by decide)).1⟩

/-- Claim C9: sigCache.insert is insert-if-absent — when the
fingerprint is already mapped, a later store leaves the cache and the
mapped signature unchanged. -/
theorem sigCache_insert_if_absent (m : List (String × RRSIG)) (s : String)
    (r0 r1 : RRSIG) (h : cacheFind m s = some r0) :
    cacheInsert m s r1 = m ∧ cacheFind (cacheInsert m s r1) s = some r0 := by
  constructor
  · simp only [cacheInsert, h]
  · simp only [cacheInsert, h]

/-- Claim C9 witness: storing a second signature under an occupied key
leaves the single-entry cache unchanged. -/
theorem sigCache_insert_if_absent_witness :
    cacheInsert [("k1", sigW2)] "k1" sigW = [("k1", sigW2)] ∧
    cacheFind (cacheInsert [("k1", sigW2)] "k1" sigW) "k1" = some sigW2 :=
  sigCache_insert_if_absent [("k1", sigW2)] "k1" sigW2 sigW (by decide)

/-- Claim C10 (amended): dlSearch performs both neighbor lookups in
bounds and returns a pair exactly when the insertion point i of the
query satisfies 1 ≤ i < length; otherwise — on the empty registry, on a
query whose insertion point is 0, or on a query strictly greater than
every stored name, whose insertion point equals the length — the source
indexes the slice out of range. -/
theorem dlSearch_isSome_iff (l : List denialref) (x : String) :
    (dlSearch l x).isSome =
      (decide (1 ≤ lowerBound l x) && decide (lowerBound l x < l.length)) := by
  simp only [dlSearch]
  by_cases h1 : lowerBound l x = 1
  · rw [if_pos h1, h1]
    cases hg : l[1]? with
    | none =>
      have hlen : l.length ≤ 1 := List.getElem?_eq_none_iff.mp hg
      simp [h1, show ¬ 1 < l.length by omega]
    | some r =>
      have hlen : 1 < l.length := by
        by_contra hc
        rw [List.getElem?_eq_none (by omega)] at hg
        cases hg
      simp [h1, hlen]
  · rw [if_neg h1]
    by_cases h0 : lowerBound l x = 0
    · rw [if_pos h0, h0]
      simp
    · rw [if_neg h0]
      cases hg2 : l[lowerBound l x]? with
      | none =>
        have hlen : l.length ≤ lowerBound l x := List.getElem?_eq_none_iff.mp hg2
        cases hg1 : l[lowerBound l x - 1]? <;>
          simp [hg1, hg2, show ¬ lowerBound l x < l.length by omega]
      | some q =>
        have hlen : lowerBound l x < l.length := by
          by_contra hc
          rw [List.getElem?_eq_none (by omega)] at hg2
          cases hg2
        have hlt : lowerBound l x - 1 < l.length := by omega
        have hg1 : l[lowerBound l x - 1]? = some l[lowerBound l x - 1] :=
          List.getElem?_eq_getElem hlt
        simp [hg1, hg2, hlen, show 1 ≤ lowerBound l x by omega]

/-- Claim C10 counterexample: on the registry holding exactly "a", the
query "b" — greater than every stored name — drives the insertion point
to the length, and the successor lookup list[i] indexes out of range
(modelled none), so search is not total. -/
theorem dlSearch_oob_cex : dlSearch [⟨"a", 1⟩] "b" = none := by decide

end SkyDnssec

